import Mathlib

/-!
Verification of the chunked codebase analysis engine of IntelliCodebase
(`src/codeanalysis.py`, class `CodebaseAnalyzer`), shallowly embedded in Lean.
File texts are modelled as `List Char`; Python's `readlines` is `splitLines`;
`get_file_chunks`, `is_cache_valid`, the padding logic of `process_codebase`,
the issue parsing of `analyze_chunk`, and the discovery/progress loop of
`process_codebase` are translated definition by definition.
-/

namespace IntelliCodebase

/-- Whitespace characters recognised by Python's `str.split()` / `str.strip()`
(restricted to the ASCII whitespace actually occurring in this program). -/
def isWs (c : Char) : Bool :=
  c = ' ' || c = '\t' || c = '\n' || c = '\r' || c = '\x0b' || c = '\x0c'

/-- Python `readlines`: split a text into lines, each line keeping its
trailing newline; the final line may lack one.  `acc` holds the current
line's characters in reverse. -/
def splitLinesAux : List Char → List Char → List (List Char)
  | acc, [] => if acc.isEmpty then [] else [acc.reverse]
  | acc, c :: cs =>
    if c = '\n' then (acc.reverse ++ ['\n']) :: splitLinesAux [] cs
    else splitLinesAux (c :: acc) cs

def splitLines (s : List Char) : List (List Char) :=
  splitLinesAux [] s

/-- `CodeChunk` dataclass of `src/codeanalysis.py`. -/
structure CodeChunk where
  file_path : String
  start_line : Nat
  end_line : Nat
  content : List Char
deriving DecidableEq

/-- The loop body of `get_file_chunks`: iterate over `lines` with running
index `i`, chunk start `start` and accumulated buffer `buf`
(`current_chunk` joined).  A chunk is emitted as soon as the buffer's
character length reaches the threshold (`self.chunk_size`); a non-empty
final buffer is emitted with `end_line = len(lines)`. -/
def chunksGo (fp : String) (thr : Nat) :
    List (List Char) → Nat → Nat → List Char → List CodeChunk
  | [], i, start, buf =>
    if buf.isEmpty then [] else [⟨fp, start, i, buf⟩]
  | line :: rest, i, start, buf =>
    if thr ≤ (buf ++ line).length then
      ⟨fp, start, i, buf ++ line⟩ :: chunksGo fp thr rest (i + 1) (i + 1) []
    else
      chunksGo fp thr rest (i + 1) start (buf ++ line)

/-- `CodebaseAnalyzer.get_file_chunks` on an in-memory file text. -/
def get_file_chunks (fp : String) (thr : Nat) (text : List Char) : List CodeChunk :=
  chunksGo fp thr (splitLines text) 0 0 []

theorem splitLinesAux_join (s : List Char) :
    ∀ acc, (splitLinesAux acc s).flatten = acc.reverse ++ s := by
  induction s with
  | nil =>
    intro acc
    by_cases h : acc.isEmpty
    · simp [splitLinesAux, h, List.isEmpty_iff.mp h]
    · simp [splitLinesAux, h]
  | cons c cs ih =>
    intro acc
    by_cases h : c = '\n'
    · simp [splitLinesAux, h, ih]
    · simp [splitLinesAux, h, ih]

theorem splitLines_join (s : List Char) : (splitLines s).flatten = s := by
  simpa using splitLinesAux_join s []

theorem chunksGo_content_join (fp : String) (thr : Nat) (lines : List (List Char)) :
    ∀ i start buf,
      ((chunksGo fp thr lines i start buf).map CodeChunk.content).flatten = buf ++ lines.flatten := by
  induction lines with
  | nil =>
    intro i start buf
    by_cases h : buf.isEmpty
    · simp [chunksGo, h, List.isEmpty_iff.mp h]
    · simp [chunksGo, h]
  | cons line rest ih =>
    intro i start buf
    simp only [chunksGo]
    by_cases h : thr ≤ (buf ++ line).length
    · rw [if_pos h]
      simp [ih]
    · rw [if_neg h]
      simp [ih]

/-- C1: for every file text and positive threshold, the chunks returned by
`get_file_chunks` partition the file's lines without gaps or overlaps:
concatenating their `content` fields in order reconstructs the text, and an
empty file yields zero chunks. -/
theorem C1_chunk_partition (fp : String) (thr : Nat) (text : List Char)
    (hthr : 0 < thr) :
    ((get_file_chunks fp thr text).map CodeChunk.content).flatten = text ∧
    get_file_chunks fp thr [] = [] := by
  constructor
  · rw [get_file_chunks, chunksGo_content_join, splitLines_join]
    simp
  · rfl

theorem C1_chunk_partition_witness :
    ((get_file_chunks "f.py" 3 ("ab\ncd\n".toList)).map CodeChunk.content).flatten
      = "ab\ncd\n".toList := by
  exact (C1_chunk_partition "f.py" 3 ("ab\ncd\n".toList) (by decide)).1

end IntelliCodebase

namespace IntelliCodebase

/-- Concatenation of lines `a` (inclusive) up to `b` (exclusive) of `L`. -/
def sliceJoin (L : List (List Char)) (a b : Nat) : List Char :=
  ((L.drop a).take (b - a)).flatten

theorem sliceJoin_self (L : List (List Char)) (a : Nat) : sliceJoin L a a = [] := by
  simp [sliceJoin]

theorem sliceJoin_snoc (L : List (List Char)) (a i : Nat) (ha : a ≤ i)
    (hi : i < L.length) :
    sliceJoin L a i ++ L[i] = sliceJoin L a (i + 1) := by
  have h1 : i + 1 - a = (i - a) + 1 := by omega
  have h2 : (L.drop a)[i - a]? = some L[i] := by
    rw [List.getElem?_drop]
    have h3 : a + (i - a) = i := by omega
    rw [h3]
    exact List.getElem?_eq_getElem hi
  rw [sliceJoin, sliceJoin, h1, List.take_succ, h2]
  simp

theorem chunksGo_head_start (fp : String) (thr : Nat) (lines : List (List Char)) :
    ∀ i start buf c, (chunksGo fp thr lines i start buf).head? = some c →
      c.start_line = start := by
  induction lines with
  | nil =>
    intro i start buf c hc
    simp only [chunksGo] at hc
    by_cases h : buf.isEmpty
    · rw [if_pos h] at hc
      simp at hc
    · rw [if_neg h] at hc
      simp only [List.head?_cons, Option.some.injEq] at hc
      subst hc
      rfl
  | cons line rest ih =>
    intro i start buf c hc
    simp only [chunksGo] at hc
    by_cases h : thr ≤ (buf ++ line).length
    · rw [if_pos h] at hc
      simp only [List.head?_cons, Option.some.injEq] at hc
      subst hc
      rfl
    · rw [if_neg h] at hc
      exact ih (i + 1) start (buf ++ line) c hc

theorem chunksGo_chain (fp : String) (thr : Nat) (lines : List (List Char)) :
    ∀ i start buf,
      List.Chain' (fun a b => b.start_line = a.end_line + 1)
        (chunksGo fp thr lines i start buf) := by
  induction lines with
  | nil =>
    intro i start buf
    simp only [chunksGo]
    by_cases h : buf.isEmpty
    · rw [if_pos h]
      exact List.chain'_nil
    · rw [if_neg h]
      exact List.chain'_singleton _
  | cons line rest ih =>
    intro i start buf
    simp only [chunksGo]
    by_cases h : thr ≤ (buf ++ line).length
    · rw [if_pos h]
      rw [List.chain'_cons']
      refine ⟨?_, ih (i + 1) (i + 1) []⟩
      intro y hy
      have hys := chunksGo_head_start fp thr rest (i + 1) (i + 1) [] y
        (Option.mem_def.mp hy)
      exact hys
    · rw [if_neg h]
      exact ih (i + 1) start (buf ++ line)

theorem chunksGo_content_spec (fp : String) (thr : Nat) (L : List (List Char)) :
    ∀ (lines : List (List Char)) (i start : Nat) (buf : List Char),
      lines = L.drop i → start ≤ i → i ≤ L.length →
      buf = sliceJoin L start i → (buf.length < thr ∨ buf = []) →
      ∀ c ∈ chunksGo fp thr lines i start buf,
        (thr ≤ c.content.length →
          c.end_line < L.length ∧
          c.content = sliceJoin L c.start_line (c.end_line + 1)) ∧
        (c.content.length < thr →
          c.end_line = L.length ∧
          c.content = sliceJoin L c.start_line L.length) := by
  intro lines
  induction lines with
  | nil =>
    intro i start buf hdrop hsi hiL hbuf hinv c hc
    have hiE : i = L.length := by
      have := List.drop_eq_nil_iff.mp hdrop.symm
      omega
    simp only [chunksGo] at hc
    by_cases h : buf.isEmpty
    · rw [if_pos h] at hc
      simp at hc
    · rw [if_neg h] at hc
      simp only [List.mem_singleton] at hc
      subst hc
      have hbufne : ¬ buf = [] := by simpa [List.isEmpty_iff] using h
      have hblt : buf.length < thr := hinv.resolve_right hbufne
      constructor
      · intro hge
        exact absurd hge (Nat.not_le.mpr hblt)
      · intro _
        refine ⟨hiE, ?_⟩
        show buf = sliceJoin L start L.length
        rw [hbuf, hiE]
  | cons line rest ih =>
    intro i start buf hdrop hsi hiL hbuf hinv c hc
    have hilt : i < L.length := by
      by_contra hge
      have hnil : L.drop i = [] := List.drop_eq_nil_iff.mpr (by omega)
      rw [← hdrop] at hnil
      simp at hnil
    have hLi := hdrop.trans (List.drop_eq_getElem_cons hilt)
    injection hLi with hline hrest
    have hbuf' : buf ++ line = sliceJoin L start (i + 1) := by
      rw [hbuf, hline]
      exact sliceJoin_snoc L start i hsi hilt
    simp only [chunksGo] at hc
    by_cases h : thr ≤ (buf ++ line).length
    · rw [if_pos h] at hc
      rcases List.mem_cons.mp hc with hc0 | hcr
      · subst hc0
        constructor
        · intro _
          refine ⟨hilt, ?_⟩
          show buf ++ line = sliceJoin L start (i + 1)
          exact hbuf'
        · intro hlt
          exact absurd h (Nat.not_le.mpr hlt)
      · exact ih (i + 1) (i + 1) [] hrest (le_refl _) (by omega)
          (sliceJoin_self L (i + 1)).symm (Or.inr rfl) c hcr
    · rw [if_neg h] at hc
      exact ih (i + 1) start (buf ++ line) hrest (by omega) (by omega)
        hbuf' (Or.inl (Nat.not_le.mp h)) c hc

/-- C8: the chunks' line ranges are 0-indexed and contiguous: the first
chunk starts at line 0, each subsequent chunk starts at the previous chunk's
`end_line + 1`, every chunk cut at the threshold covers exactly the lines
`start_line .. end_line` (so `end_line` is the index of its last included
line, strictly below the line count), and the final remainder chunk (the one
shorter than the threshold, when present) has `end_line` equal to the file's
total line count. -/
theorem C8_line_ranges (fp : String) (thr : Nat) (text : List Char) :
    (∀ c, (get_file_chunks fp thr text).head? = some c → c.start_line = 0) ∧
    List.Chain' (fun a b => b.start_line = a.end_line + 1)
      (get_file_chunks fp thr text) ∧
    (∀ c ∈ get_file_chunks fp thr text,
      (thr ≤ c.content.length →
        c.end_line < (splitLines text).length ∧
        c.content = sliceJoin (splitLines text) c.start_line (c.end_line + 1)) ∧
      (c.content.length < thr →
        c.end_line = (splitLines text).length ∧
        c.content = sliceJoin (splitLines text) c.start_line (splitLines text).length)) := by
  refine ⟨?_, ?_, ?_⟩
  · intro c hc
    exact chunksGo_head_start fp thr (splitLines text) 0 0 [] c hc
  · exact chunksGo_chain fp thr (splitLines text) 0 0 []
  · intro c hc
    exact chunksGo_content_spec fp thr (splitLines text) (splitLines text) 0 0 []
      (List.drop_zero _).symm (le_refl 0) (Nat.zero_le _)
      (sliceJoin_self _ 0).symm (Or.inr rfl) c hc

theorem C8_line_ranges_witness :
    (CodeChunk.mk "f.py" 0 0 ("ab\n".toList)).start_line = 0 :=
  (C8_line_ranges "f.py" 3 ("ab\ncd\n".toList)).1 _ (by decide)

end IntelliCodebase

namespace IntelliCodebase

theorem chunksGo_dropLast_ge (fp : String) (thr : Nat) (lines : List (List Char)) :
    ∀ i start buf, ∀ c ∈ (chunksGo fp thr lines i start buf).dropLast,
      thr ≤ c.content.length := by
  induction lines with
  | nil =>
    intro i start buf c hc
    simp only [chunksGo] at hc
    by_cases h : buf.isEmpty
    · rw [if_pos h] at hc
      simp at hc
    · rw [if_neg h] at hc
      simp at hc
  | cons line rest ih =>
    intro i start buf c hc
    simp only [chunksGo] at hc
    by_cases h : thr ≤ (buf ++ line).length
    · rw [if_pos h] at hc
      cases hrec : chunksGo fp thr rest (i + 1) (i + 1) [] with
      | nil =>
        rw [hrec] at hc
        simp at hc
      | cons y ys =>
        rw [hrec, List.dropLast_cons₂] at hc
        rcases List.mem_cons.mp hc with hc0 | hcr
        · subst hc0
          exact h
        · exact ih (i + 1) (i + 1) [] c (by rw [hrec]; exact hcr)
    · rw [if_neg h] at hc
      exact ih (i + 1) start (buf ++ line) c hc

theorem chunksGo_cut_min (fp : String) (thr : Nat) (L : List (List Char))
    (hthr : 0 < thr) :
    ∀ (lines : List (List Char)) (i start : Nat) (buf : List Char),
      (∀ l ∈ lines, l ∈ L) → buf.length < thr →
      ∀ c ∈ chunksGo fp thr lines i start buf, thr ≤ c.content.length →
      ∃ pre ln, c.content = pre ++ ln ∧ pre.length < thr ∧ ln ∈ L := by
  intro lines
  induction lines with
  | nil =>
    intro i start buf _ hblt c hc hge
    simp only [chunksGo] at hc
    by_cases h : buf.isEmpty
    · rw [if_pos h] at hc
      simp at hc
    · rw [if_neg h] at hc
      simp only [List.mem_singleton] at hc
      subst hc
      exact absurd hge (Nat.not_le.mpr hblt)
  | cons line rest ih =>
    intro i start buf hmem hblt c hc hge
    simp only [chunksGo] at hc
    by_cases h : thr ≤ (buf ++ line).length
    · rw [if_pos h] at hc
      rcases List.mem_cons.mp hc with hc0 | hcr
      · subst hc0
        exact ⟨buf, line, rfl, hblt, hmem line (List.mem_cons_self _ _)⟩
      · exact ih (i + 1) (i + 1) []
          (fun l hl => hmem l (List.mem_cons_of_mem _ hl)) (by simpa using hthr)
          c hcr hge
    · rw [if_neg h] at hc
      exact ih (i + 1) start (buf ++ line)
        (fun l hl => hmem l (List.mem_cons_of_mem _ hl)) (Nat.not_le.mp h)
        c hc hge

/-- C7 (amended): for every file text and positive threshold, every chunk
except possibly the final one has content length at least the threshold, and
the buffer is cut at the first line where it reaches the threshold: every
chunk of length at least the threshold is a buffer of length strictly below
the threshold plus one final input line.  (The chunk count is therefore
maximal, not minimal, among partitions whose non-final blocks reach the
threshold; minimality fails, see the counterexample.) -/
theorem C7_chunk_sizes (fp : String) (thr : Nat) (text : List Char)
    (hthr : 0 < thr) :
    (∀ c ∈ (get_file_chunks fp thr text).dropLast, thr ≤ c.content.length) ∧
    (∀ c ∈ get_file_chunks fp thr text, thr ≤ c.content.length →
      ∃ pre ln, c.content = pre ++ ln ∧ pre.length < thr ∧
        ln ∈ splitLines text) := by
  constructor
  · intro c hc
    exact chunksGo_dropLast_ge fp thr (splitLines text) 0 0 [] c hc
  · intro c hc hge
    exact chunksGo_cut_min fp thr (splitLines text) hthr (splitLines text) 0 0 []
      (fun l hl => hl) (by simpa using hthr) c hc hge

theorem C7_chunk_sizes_witness :
    ∃ pre ln, (CodeChunk.mk "f.py" 0 0 ("ab\n".toList)).content = pre ++ ln ∧
      pre.length < 3 ∧ ln ∈ splitLines ("ab\ncd\n".toList) :=
  (C7_chunk_sizes "f.py" 3 ("ab\ncd\n".toList) (by decide)).2
    (CodeChunk.mk "f.py" 0 0 ("ab\n".toList)) (by decide) (by decide)

/-- Decides whether `bs` is a partition of the file's lines into contiguous
non-empty blocks each of which, except possibly the last, has joined
character length at least `thr` — the constraint the greedy splitter obeys. -/
def validPartitionB (thr : Nat) (lines : List (List Char))
    (bs : List (List (List Char))) : Bool :=
  decide (bs.flatten = lines) && !(bs.contains []) &&
    bs.dropLast.all (fun b => decide (thr ≤ b.flatten.length))

/-- C7 is refuted as stated: the number of chunks produced by the splitter is
not minimal subject to the size threshold.  On the two-line file "a\nb\n"
with threshold 1 the splitter produces 2 chunks, while the single-block
partition also satisfies the threshold constraint with only 1 block. -/
theorem C7_count_not_minimal :
    ¬ (∀ bs : List (List (List Char)),
        validPartitionB 1 (splitLines ("a\nb\n".toList)) bs = true →
        (get_file_chunks "f.py" 1 ("a\nb\n".toList)).length ≤ bs.length) := by
  intro hmin
  have h := hmin [["a\n".toList, "b\n".toList]] (by decide)
  exact absurd h (by decide)

end IntelliCodebase

namespace IntelliCodebase

/-- Python `str.split(sep)` for a non-empty separator, scanning left to
right; `fuel` bounds the recursion and is initialised to the text length,
which one consumed character per step makes sufficient. -/
def splitOnSubFuel (sep : List Char) : Nat → List Char → List Char → List (List Char)
  | _, acc, [] => [acc.reverse]
  | 0, acc, s => [acc.reverse ++ s]
  | fuel + 1, acc, c :: rest =>
    if sep.isPrefixOf (c :: rest) then
      acc.reverse :: splitOnSubFuel sep fuel [] ((c :: rest).drop sep.length)
    else
      splitOnSubFuel sep fuel (c :: acc) rest

def splitOnSub (sep s : List Char) : List (List Char) :=
  splitOnSubFuel sep s.length [] s

/-- Python `str.strip()`. -/
def stripChars (s : List Char) : List Char :=
  ((s.dropWhile isWs).reverse.dropWhile isWs).reverse

/-- Python `s.split(":", 1)`: `none` when `s` has no colon (indexing `[1]`
into the split would raise), otherwise the text before and after the first
colon. -/
def splitFirstColonL : List Char → Option (List Char × List Char)
  | [] => none
  | c :: rest =>
    if c = ':' then some ([], rest)
    else (splitFirstColonL rest).map fun p => (c :: p.1, p.2)

def digitsToNat : Nat → List Char → Option Nat
  | acc, [] => some acc
  | acc, c :: rest =>
    if c.isDigit then digitsToNat (acc * 10 + (c.toNat - 48)) rest else none

/-- Python `int(s)` on an already-stripped string: optional sign followed by
at least one decimal digit, `none` when `int` would raise `ValueError`. -/
def parseIntL : List Char → Option Int
  | [] => none
  | '-' :: rest =>
    if rest.isEmpty then none else (digitsToNat 0 rest).map fun n => -(n : Int)
  | '+' :: rest =>
    if rest.isEmpty then none else (digitsToNat 0 rest).map fun n => (n : Int)
  | s => (digitsToNat 0 s).map fun n => (n : Int)

/-- Python `needle in hay` on strings. -/
def hasSubstring (needle : List Char) : List Char → Bool
  | [] => needle.isEmpty
  | c :: rest => needle.isPrefixOf (c :: rest) || hasSubstring needle rest

def noIssuesLit : List Char := "No issues found".toList

def fixLit : List Char := "Fix Suggestion:".toList

def priLit : List Char := "Priority:".toList

def noneLit : List Char := "None".toList

def dashLit : List Char := "---".toList

def nlLit : List Char := ['\n']

/-- `Issue` dataclass of `src/codeanalysis.py`. -/
structure Issue where
  chunk : CodeChunk
  description : List Char
  fix_suggestion : Option (List Char)
  priority : Int
deriving DecidableEq

/-- The `for part in issue_parts[1:]` loop of `analyze_chunk`: scans the
lines after the first one, updating the fix suggestion (literal "None"
becomes absent) and the priority; a non-integer priority raises inside the
block's `try` and so fails the whole block (`none`); any other line is
ignored. -/
def parseFields : Option (List Char) → Int → List (List Char) → Option (Option (List Char) × Int)
  | fx, pri, [] => some (fx, pri)
  | fx, pri, part :: rest =>
    if fixLit.isPrefixOf part then
      match splitFirstColonL part with
      | none => none
      | some (_, suffix) =>
        parseFields
          (if stripChars suffix = noneLit then none else some (stripChars suffix))
          pri rest
    else if priLit.isPrefixOf part then
      match splitFirstColonL part with
      | none => none
      | some (_, suffix) =>
        match parseIntL (stripChars suffix) with
        | none => none
        | some n => parseFields fx n rest
    else
      parseFields fx pri rest

/-- Parsing of one `---`-delimited issue block (already stripped and
non-empty), given as its list of lines: the description is the stripped text
after the first colon of the first line; any exception (missing colon,
non-integer priority) skips the block. -/
def parseBlockLines (chunk : CodeChunk) (parts : List (List Char)) : Option Issue :=
  match parts with
  | [] => none
  | first :: rest =>
    match splitFirstColonL first with
    | none => none
    | some (_, descRaw) =>
      match parseFields none 0 rest with
      | none => none
      | some (fx, pri) => some ⟨chunk, stripChars descRaw, fx, pri⟩

/-- The response-parsing part of `CodebaseAnalyzer.analyze_chunk`. -/
def parse_issues (chunk : CodeChunk) (text : List Char) : List Issue :=
  if hasSubstring noIssuesLit text then []
  else
    (splitOnSub dashLit text).filterMap fun b =>
      if (stripChars b).isEmpty then none
      else parseBlockLines chunk (splitOnSub nlLit (stripChars b))

/-- The generation response consumed by `analyze_chunk`: its candidate list
and its text. -/
structure GenResponse where
  candidates : List String
  text : List Char

/-- `CodebaseAnalyzer.analyze_chunk` viewed from its observable output: a
generation-call failure is caught and yields no issues; a response without
candidates yields no issues; otherwise the response text is parsed. -/
def analyze_chunk (chunk : CodeChunk) (response : Except String GenResponse) : List Issue :=
  match response with
  | .error _ => []
  | .ok r => if r.candidates.isEmpty then [] else parse_issues chunk r.text

def sampleChunk : CodeChunk :=
  ⟨"src/sample.py", 0, 2, "x = 1\ny = 2\n".toList⟩

end IntelliCodebase

namespace IntelliCodebase

/-- C5: any response text containing the literal substring "No issues found"
parses to no issues; and the spec's two-block example parses to exactly the
two stated issues, the first with fix suggestion "use <=" and priority 2,
the second with no fix suggestion and priority 0. -/
theorem C5_parser_behaviour :
    (∀ (chunk : CodeChunk) (text : List Char),
      hasSubstring noIssuesLit text = true → parse_issues chunk text = []) ∧
    parse_issues sampleChunk
      ("Issue: off-by-one in loop\nFix Suggestion: use <=\nPriority: 2\n---\nIssue: unused import\nPriority: 0".toList) =
      [⟨sampleChunk, "off-by-one in loop".toList, some ("use <=".toList), 2⟩,
       ⟨sampleChunk, "unused import".toList, none, 0⟩] := by
  constructor
  · intro chunk text h
    simp [parse_issues, h]
  · decide

theorem C5_parser_behaviour_witness :
    parse_issues sampleChunk ("No issues found".toList) = [] :=
  C5_parser_behaviour.1 sampleChunk ("No issues found".toList) (by decide)

/-- C6: failures are isolated per unit of work: a generation-call failure
for a chunk yields an empty issue list for that chunk, and a response whose
blocks include a block without a colon and a block with a non-integer
priority still yields the issues of every well-formed block, with only the
malformed blocks skipped. -/
theorem C6_failure_isolation :
    (∀ (chunk : CodeChunk) (e : String),
      analyze_chunk chunk (Except.error e) = []) ∧
    parse_issues sampleChunk
      ("Issue: a\n---\nmalformed block without delimiter\n---\nIssue: b\nPriority: high\n---\nIssue: c\nFix Suggestion: None\nPriority: 3".toList) =
      [⟨sampleChunk, "a".toList, none, 0⟩,
       ⟨sampleChunk, "c".toList, none, 3⟩] := by
  constructor
  · intro chunk e
    rfl
  · decide

theorem parseFields_filter :
    ∀ (rest : List (List Char)) (fx : Option (List Char)) (pri : Int),
      parseFields fx pri rest =
        parseFields fx pri (rest.filter
          (fun l => fixLit.isPrefixOf l || priLit.isPrefixOf l)) := by
  intro rest
  induction rest with
  | nil =>
    intro fx pri
    rfl
  | cons part rest ih =>
    intro fx pri
    by_cases hf : fixLit.isPrefixOf part
    · rw [List.filter_cons_of_pos (by simp [hf])]
      simp only [parseFields]
      rw [if_pos hf, if_pos hf]
      split
      · rfl
      · exact ih _ pri
    · by_cases hp : priLit.isPrefixOf part
      · rw [List.filter_cons_of_pos (by simp [hp])]
        simp only [parseFields]
        rw [if_neg hf, if_pos hp, if_neg hf, if_pos hp]
        split
        · rfl
        · split
          · rfl
          · exact ih fx _
      · rw [List.filter_cons_of_neg (by simp [hf, hp])]
        simp only [parseFields]
        rw [if_neg hf, if_neg hp]
        exact ih fx pri

/-- C10: for every issue block, the description comes solely from the first
line (the stripped text after its first colon), and every subsequent line
that starts with neither "Fix Suggestion:" nor "Priority:" is silently
ignored: filtering those lines out does not change the parse result. -/
theorem C10_description_first_line (chunk : CodeChunk) (first : List Char)
    (rest : List (List Char)) :
    parseBlockLines chunk (first :: rest) =
      parseBlockLines chunk (first :: rest.filter
        (fun l => fixLit.isPrefixOf l || priLit.isPrefixOf l)) ∧
    ∀ issue, parseBlockLines chunk (first :: rest) = some issue →
      ∃ pre suffix, splitFirstColonL first = some (pre, suffix) ∧
        issue.description = stripChars suffix := by
  constructor
  · simp only [parseBlockLines]
    cases splitFirstColonL first with
    | none => rfl
    | some pr =>
      rw [← parseFields_filter]
  · intro issue hissue
    simp only [parseBlockLines] at hissue
    cases hcol : splitFirstColonL first with
    | none =>
      rw [hcol] at hissue
      simp at hissue
    | some pr =>
      rw [hcol] at hissue
      cases pr with
      | mk b a =>
        cases hfld : parseFields none 0 rest with
        | none =>
          rw [hfld] at hissue
          simp at hissue
        | some fp2 =>
          rw [hfld] at hissue
          cases fp2 with
          | mk fx pr2 =>
            simp only [Option.some.injEq] at hissue
            exact ⟨b, a, rfl, by rw [← hissue]⟩

theorem C10_description_first_line_witness :
    ∃ pre suffix, splitFirstColonL ("Issue: x".toList) = some (pre, suffix) ∧
      (Issue.mk sampleChunk ("x".toList) none 0).description = stripChars suffix :=
  (C10_description_first_line sampleChunk ("Issue: x".toList)
    ["this line is ignored".toList]).2
    (Issue.mk sampleChunk ("x".toList) none 0) (by decide)

end IntelliCodebase

namespace IntelliCodebase

/-- `CodebaseAnalyzer.is_cache_valid`, over an abstract filesystem view:
`cache_mapping` is the persisted JSON dictionary, `mtime` the result of
`os.path.getmtime` on the representative file (`none` when the call raises
`OSError`), and `iso_to_ts` the timestamp obtained by parsing an ISO-8601
string (`datetime.fromisoformat(...).timestamp()`).  The creation time is
extracted from the final dot-separated segment of the cache identifier. -/
def is_cache_valid (cache_mapping : List (String × String))
    (iso_to_ts : String → Int) (mtime : Option Int) : Bool :=
  match cache_mapping.lookup "codebase_cache_name" with
  | none => false
  | some name =>
    match mtime with
    | none => false
    | some t => decide (t ≤ iso_to_ts ((name.splitOn ".").getLastD ""))

/-- C3: the cache validity check returns false when the mapping has no
"codebase_cache_name" entry, false when the representative file's
modification time cannot be read, and otherwise returns true exactly when
the modification time is at most the creation timestamp embedded in the
cache identifier's final dot-separated segment. -/
theorem C3_cache_validity (cache_mapping : List (String × String))
    (iso_to_ts : String → Int) (mtime : Option Int) :
    (cache_mapping.lookup "codebase_cache_name" = none →
      is_cache_valid cache_mapping iso_to_ts mtime = false) ∧
    (mtime = none → is_cache_valid cache_mapping iso_to_ts mtime = false) ∧
    (∀ name t, cache_mapping.lookup "codebase_cache_name" = some name →
      mtime = some t →
      (is_cache_valid cache_mapping iso_to_ts mtime = true ↔
        t ≤ iso_to_ts ((name.splitOn ".").getLastD ""))) := by
  refine ⟨?_, ?_, ?_⟩
  · intro h
    simp [is_cache_valid, h]
  · intro h
    subst h
    simp only [is_cache_valid]
    cases cache_mapping.lookup "codebase_cache_name" <;> rfl
  · intro name t hname ht
    subst ht
    simp [is_cache_valid, hname]

theorem C3_cache_validity_witness :
    is_cache_valid [("codebase_cache_name", "cache.2024-01-01T00:00:00")]
      (fun _ => 100) (some 50) = true ↔ (50 : Int) ≤ 100 :=
  (C3_cache_validity [("codebase_cache_name", "cache.2024-01-01T00:00:00")]
    (fun _ => 100) (some 50)).2.2 "cache.2024-01-01T00:00:00" 50 (by rfl) rfl

end IntelliCodebase

namespace IntelliCodebase

/-- Python `len(s.split())`: number of whitespace-delimited words, counted
as transitions from whitespace (or the start, `prevWs = true`) into a
non-whitespace character.  This is the token-count estimate of
`process_codebase`. -/
def wcount : Bool → List Char → Nat
  | _, [] => 0
  | prevWs, c :: cs =>
    if isWs c then wcount true cs
    else (if prevWs then 1 else 0) + wcount false cs

def countWords (s : List Char) : Nat := wcount true s

/-- Whether the last character of `a` is whitespace (`b` when `a` is empty). -/
def lastWs : Bool → List Char → Bool
  | b, [] => b
  | _, c :: cs => lastWs (isWs c) cs

theorem wcount_append (a : List Char) :
    ∀ (b : Bool) (l : List Char),
      wcount b (a ++ l) = wcount b a + wcount (lastWs b a) l := by
  induction a with
  | nil =>
    intro b l
    simp [wcount, lastWs]
  | cons c cs ih =>
    intro b l
    by_cases h : isWs c
    · simp [wcount, lastWs, h, ih]
    · simp [wcount, lastWs, h, ih, Nat.add_assoc]

theorem lastWs_append (a : List Char) :
    ∀ (b : Bool) (l : List Char), lastWs b (a ++ l) = lastWs (lastWs b a) l := by
  induction a with
  | nil =>
    intro b l
    rfl
  | cons c cs ih =>
    intro b l
    simp [lastWs, ih]

/-- The repeated unit of the padding text in `process_codebase`. -/
def paddingBase : List Char :=
  "This is padding content to meet the minimum token requirement for caching. ".toList

def paddingHeader : List Char := "--- PADDING START ---\n".toList

def paddingFooter : List Char := "\n--- PADDING END ---".toList

/-- The padding block appended by `process_codebase` when the estimated
token count falls short by `needed` tokens: the base sentence repeated
`needed // 10 + 1` times, bracketed by the sentinel markers. -/
def mkPaddingBlock (needed : Nat) : List Char :=
  paddingHeader ++ (List.replicate (needed / 10 + 1) paddingBase).flatten ++ paddingFooter

/-- The padding step of `process_codebase`: executed only when the list of
content parts is non-empty; appends one padding part when the estimated
token count is below the minimum. -/
def add_padding (parts : List (List Char)) (minTok : Nat) : List (List Char) :=
  if parts.isEmpty then parts
  else if (parts.map countWords).sum < minTok then
    parts ++ [mkPaddingBlock (minTok - (parts.map countWords).sum)]
  else parts

theorem padding_rep (k : Nat) :
    wcount true (List.replicate k paddingBase).flatten = 12 * k ∧
    lastWs true (List.replicate k paddingBase).flatten = true := by
  induction k with
  | zero => exact ⟨rfl, rfl⟩
  | succ n ih =>
    rw [List.replicate_succ, List.flatten_cons]
    constructor
    · rw [wcount_append]
      have h1 : wcount true paddingBase = 12 := by decide
      have h2 : lastWs true paddingBase = true := by decide
      rw [h1, h2, ih.1]
      ring
    · rw [lastWs_append]
      have h2 : lastWs true paddingBase = true := by decide
      rw [h2, ih.2]

theorem countWords_mkPaddingBlock (n : Nat) :
    countWords (mkPaddingBlock n) = 12 * (n / 10 + 1) + 8 := by
  have hh1 : wcount true paddingHeader = 4 := by decide
  have hh2 : lastWs true paddingHeader = true := by decide
  have hf1 : wcount true paddingFooter = 4 := by decide
  rw [mkPaddingBlock, countWords, wcount_append, wcount_append, hh1, hh2,
    lastWs_append, hh2, (padding_rep _).1, (padding_rep _).2, hf1]
  ring

/-- C4: for every non-empty sequence of discovered file contents, if the
whitespace-word estimate of the combined contents is below `min_token_count`
then the padding step appends exactly one sentinel-bracketed padding block
and the resulting body's estimate is at least `min_token_count`; if the
estimate is already at or above the minimum, nothing is appended. -/
theorem C4_padding (parts : List (List Char)) (minTok : Nat)
    (hne : parts ≠ []) :
    ((parts.map countWords).sum < minTok →
      add_padding parts minTok =
        parts ++ [mkPaddingBlock (minTok - (parts.map countWords).sum)] ∧
      minTok ≤ ((add_padding parts minTok).map countWords).sum) ∧
    (minTok ≤ (parts.map countWords).sum →
      add_padding parts minTok = parts) := by
  have hni : ¬ (parts.isEmpty = true) := by simpa [List.isEmpty_iff] using hne
  constructor
  · intro hlt
    have hAdd : add_padding parts minTok =
        parts ++ [mkPaddingBlock (minTok - (parts.map countWords).sum)] := by
      rw [add_padding, if_neg hni, if_pos hlt]
    refine ⟨hAdd, ?_⟩
    rw [hAdd, List.map_append, List.sum_append]
    simp only [List.map_cons, List.map_nil, List.sum_cons, List.sum_nil]
    rw [countWords_mkPaddingBlock]
    omega
  · intro hge
    rw [add_padding, if_neg hni, if_neg (by omega)]

theorem C4_padding_witness :
    5 ≤ ((add_padding [("hello world".toList)] 5).map countWords).sum :=
  ((C4_padding [("hello world".toList)] 5 (by decide)).1 (by decide)).2

end IntelliCodebase

namespace IntelliCodebase

/-- Abstract filesystem view for `process_codebase`: the files produced by
`os.walk` in traversal order, and each file's text (`none` when reading
raises `UnicodeDecodeError`). -/
structure FileSys where
  walk : List String
  content : String → Option String

/-- The extension filter of `process_directory`:
`file.endswith((".py", ".js", ".cpp"))`. -/
def hasSrcExt (f : String) : Bool :=
  ".py".toList.isSuffixOf f.toList || ".js".toList.isSuffixOf f.toList ||
    ".cpp".toList.isSuffixOf f.toList

/-- The discovery loop of `process_codebase`: files with a recognised
extension, not already in the progress's `processed_files`, and readable.
Only `processed_files` of the progress dictionary is ever consulted. -/
def discovered_files (fs : FileSys) (processed : List String) : List String :=
  fs.walk.filter fun f =>
    hasSrcExt f && !(processed.contains f) && (fs.content f).isSome

/-- The `codebase_content_parts` accumulated alongside `codebase_files`
(one `Part.from_text` per successfully read file). -/
def discovered_parts (fs : FileSys) (processed : List String) : List (List Char) :=
  (discovered_files fs processed).filterMap fun f => (fs.content f).map String.toList

/-- Observable actions of the analyze loop of `process_codebase`:
analysing one chunk of a file, and persisting the progress
(its `processed_files` list). -/
inductive Event where
  | analyzeChunk : String → Nat → Event
  | saveProgress : List String → Event
deriving DecidableEq

/-- The per-file chunk analyses, one event per chunk of the file. -/
def file_events (nchunks : String → Nat) (f : String) : List Event :=
  (List.range (nchunks f)).map (Event.analyzeChunk f)

/-- The analyze loop of `process_codebase`: for each file, analyse all its
chunks, then append the file to `processed_files` and persist, before the
next file starts. -/
def run_trace (nchunks : String → Nat) : List String → List String → List Event
  | [], _ => []
  | f :: rest, processed =>
    file_events nchunks f ++
      (Event.saveProgress (processed ++ [f]) ::
        run_trace nchunks rest (processed ++ [f]))

theorem run_trace_analyze_mem (nchunks : String → Nat) :
    ∀ (files processed : List String) (f : String) (j : Nat),
      Event.analyzeChunk f j ∈ run_trace nchunks files processed → f ∈ files := by
  intro files
  induction files with
  | nil =>
    intro processed f j h
    simp [run_trace] at h
  | cons g rest ih =>
    intro processed f j h
    simp only [run_trace, List.mem_append, List.mem_cons] at h
    rcases h with h1 | h2 | h3
    · rw [file_events] at h1
      simp only [List.mem_map] at h1
      obtain ⟨a, _, heq⟩ := h1
      have hgf : g = f := by
        injection heq
      subst hgf
      exact List.mem_cons_self _ _
    · simp at h2
    · exact List.mem_cons_of_mem _ (ih _ f j h3)

theorem run_trace_structure (nchunks : String → Nat) :
    ∀ (files processed : List String),
      run_trace nchunks files processed =
        ((List.range files.length).map fun i =>
          file_events nchunks (files.getD i "") ++
            [Event.saveProgress (processed ++ files.take (i + 1))]).flatten := by
  intro files
  induction files with
  | nil =>
    intro processed
    rfl
  | cons f rest ih =>
    intro processed
    rw [run_trace, ih (processed ++ [f])]
    rw [List.length_cons, List.range_succ_eq_map, List.map_cons, List.flatten_cons,
      List.map_map]
    have hfun : ∀ i ∈ List.range rest.length,
        ((fun i => file_events nchunks ((f :: rest).getD i "") ++
            [Event.saveProgress (processed ++ (f :: rest).take (i + 1))]) ∘ Nat.succ) i =
          file_events nchunks (rest.getD i "") ++
            [Event.saveProgress ((processed ++ [f]) ++ rest.take (i + 1))] := by
      intro i _
      simp [List.take_succ_cons, List.append_assoc]
    rw [List.map_congr_left hfun]
    simp [List.take_succ_cons, List.append_assoc]

theorem filter_and_not_contains (l : List String) (q : String → Bool) (r : List String) :
    (l.filter fun x => q x && !(r.contains x)) =
      (l.filter q).filter fun x => !(r.contains x) := by
  rw [List.filter_filter]
  exact List.filter_congr fun x _ => by rw [Bool.and_comm]

theorem filter_not_contains_append (t d : List String)
    (hdisj : ∀ x ∈ d, x ∉ t) :
    ((t ++ d).filter fun x => !(t.contains x)) = d := by
  rw [List.filter_append]
  have h1 : (t.filter fun x => !(t.contains x)) = [] := by
    rw [List.filter_eq_nil_iff]
    intro a ha
    simp [ha]
  have h2 : (d.filter fun x => !(t.contains x)) = d := by
    rw [List.filter_eq_self]
    intro a ha
    simp [hdisj a ha]
  rw [h1, h2, List.nil_append]

theorem filter_take_drop (m : List String) (hm : m.Nodup) (k : Nat) :
    (m.filter fun x => !((m.take k).contains x)) = m.drop k := by
  have hdisj : ∀ x ∈ m.drop k, x ∉ m.take k := by
    intro x hx hxt
    exact List.disjoint_take_drop hm (le_refl k) hxt hx
  calc (m.filter fun x => !((m.take k).contains x))
      = ((m.take k ++ m.drop k).filter fun x => !((m.take k).contains x)) := by
        rw [List.take_append_drop]
    _ = m.drop k := filter_not_contains_append _ _ hdisj

theorem discovered_after_take (fs : FileSys) (p : List String) (k : Nat)
    (hnd : fs.walk.Nodup) :
    discovered_files fs (p ++ (discovered_files fs p).take k) =
      (discovered_files fs p).drop k := by
  have hpt : ∀ f ∈ fs.walk,
      (hasSrcExt f && !((p ++ (discovered_files fs p).take k).contains f) &&
        (fs.content f).isSome) =
      ((hasSrcExt f && !(p.contains f) && (fs.content f).isSome) &&
        !(((discovered_files fs p).take k).contains f)) := by
    intro f _
    by_cases h1 : f ∈ p <;> by_cases h2 : f ∈ (discovered_files fs p).take k <;>
      simp [h1, h2, Bool.and_assoc, Bool.and_comm]
  rw [discovered_files, List.filter_congr hpt, filter_and_not_contains]
  rw [← discovered_files]
  exact filter_take_drop _ (hnd.filter _) k

end IntelliCodebase

namespace IntelliCodebase

/-- C2: files already in the loaded progress's `processed_files` are
excluded from discovery and never analysed in the run; the run's trace is,
file by file in discovery order, the file's chunk analyses followed by one
progress save whose `processed_files` is the previous progress plus that
file, persisted before the next file's analysis begins; consequently,
stopping after `k` files have been persisted and resuming with that
progress discovers exactly the remaining files: none of the first `k`
files is re-analysed, and the `(k+1)`-st file is discovered again. -/
theorem C2_crash_resume (fs : FileSys) (p : List String) (nchunks : String → Nat)
    (k : Nat) (hnd : fs.walk.Nodup) (hk : k < (discovered_files fs p).length) :
    (∀ f ∈ p, f ∉ discovered_files fs p ∧
      ∀ j, Event.analyzeChunk f j ∉ run_trace nchunks (discovered_files fs p) p) ∧
    run_trace nchunks (discovered_files fs p) p =
      ((List.range (discovered_files fs p).length).map fun i =>
        file_events nchunks ((discovered_files fs p).getD i "") ++
          [Event.saveProgress (p ++ (discovered_files fs p).take (i + 1))]).flatten ∧
    discovered_files fs (p ++ (discovered_files fs p).take k) =
      (discovered_files fs p).drop k ∧
    (∀ x ∈ (discovered_files fs p).take k,
      x ∉ discovered_files fs (p ++ (discovered_files fs p).take k) ∧
      ∀ j, Event.analyzeChunk x j ∉
        run_trace nchunks
          (discovered_files fs (p ++ (discovered_files fs p).take k))
          (p ++ (discovered_files fs p).take k)) ∧
    (discovered_files fs p).getD k "" ∈
      discovered_files fs (p ++ (discovered_files fs p).take k) := by
  have hdrop := discovered_after_take fs p k hnd
  refine ⟨?_, run_trace_structure nchunks _ p, hdrop, ?_, ?_⟩
  · intro f hf
    have hnot : f ∉ discovered_files fs p := by
      intro hmem
      have hpred := List.of_mem_filter hmem
      simp [hf] at hpred
    exact ⟨hnot, fun j hj => hnot (run_trace_analyze_mem nchunks _ p f j hj)⟩
  · intro x hx
    have hnotd : x ∉ (discovered_files fs p).drop k := fun hd =>
      List.disjoint_take_drop (hnd.filter _) (le_refl k) hx hd
    rw [hdrop]
    exact ⟨hnotd, fun j hj => hnotd (run_trace_analyze_mem nchunks _ _ x j hj)⟩
  · rw [hdrop]
    have hgd : (discovered_files fs p).getD k "" = (discovered_files fs p)[k] := by
      rw [List.getD_eq_getElem?_getD, List.getElem?_eq_getElem hk]
      rfl
    rw [hgd, List.drop_eq_getElem_cons hk]
    exact List.mem_cons_self _ _

theorem C2_crash_resume_witness :
    discovered_files ⟨["a.py", "b.py"], fun _ => some "x"⟩
        ([] ++ (discovered_files ⟨["a.py", "b.py"], fun _ => some "x"⟩ []).take 1) =
      (discovered_files ⟨["a.py", "b.py"], fun _ => some "x"⟩ []).drop 1 :=
  (C2_crash_resume ⟨["a.py", "b.py"], fun _ => some "x"⟩ [] (fun _ => 1) 1
    (by decide) (by decide)).2.2.1

/-- C9: whenever the cache-build condition of `process_codebase` inspects
`codebase_files[0]`, that list is non-empty: the padding part is only ever
appended when at least one real file part exists, so a non-empty
content-parts list (after the padding step) implies a non-empty
discovered-files list and the index access cannot fail. -/
theorem C9_files_nonempty (fs : FileSys) (processed : List String) (minTok : Nat)
    (h : add_padding (discovered_parts fs processed) minTok ≠ []) :
    discovered_files fs processed ≠ [] := by
  intro hf
  apply h
  have hparts : discovered_parts fs processed = [] := by
    rw [discovered_parts, hf]
    rfl
  rw [hparts]
  rfl

theorem C9_files_nonempty_witness :
    discovered_files ⟨["a.py"], fun _ => some "print"⟩ [] ≠ [] :=
  C9_files_nonempty ⟨["a.py"], fun _ => some "print"⟩ [] 5 (by decide)

end IntelliCodebase
